import Mathlib

set_option maxHeartbeats 1000000

/-! Verification development for the albus interpreter (`src/main.rs`): a
whitespace-only esoteric stack language.  The program is a two-stage
pipeline: a streaming decoder (`parse_arg` / `parse`) from the
three-character token alphabet to an instruction list plus a label table,
and a virtual machine (`interpret`) executing that list against an operand
stack, a call stack and a key/value heap of arbitrary-precision integers.

Modelling conventions:
* `BigInt` is modelled as `Int` (both unbounded).
* The rolling opcode accumulator is a Rust `u8`; its arithmetic wraps, which
  is modelled as `% 256`.
* Rust panics (partial `unwrap`s, out-of-range indexing, division by zero)
  are modelled as explicit failure values (`Option.none` in the decoder,
  `StepRes.fail` in the machine), named after the spec's error taxonomy.
* The operand stack is a Rust `Vec` growing at the end; it is modelled as a
  `List` whose HEAD is the TOP of the stack, so `Vec` index
  `len - 1 - k` (k positions below the top) is list position `k`.
* `hashbrown::HashMap` (heap, label table) is modelled as an association
  list where insertion prepends and lookup returns the first (hence most
  recent) binding, matching the map's insert-overwrites semantics.
* `stdin` is modelled as a byte list carried in the machine state; the
  output streams are modelled as a list of emitted events (in reverse
  emission order; no claim depends on the output).
-/

/-- The three significant source characters; `src.retain` discards all
others before decoding. -/
inductive Tok
  | space
  | tab
  | lf
deriving DecidableEq

/-- `byte % 4` for the three retained bytes: `' '` = 32 ↦ 0, `'\t'` = 9 ↦ 1,
`'\n'` = 10 ↦ 2. -/
def tokCode : Tok → Nat
  | .space => 0
  | .tab => 1
  | .lf => 2

/-- The instruction type `Insn` of the source, including the sentinel
`Insn::None` produced for an accumulator value that matches no opcode. -/
inductive Insn
  | none
  | push (v : Int)
  | pop
  | dup
  | swap
  | copy (v : Int)
  | slide (v : Int)
  | add
  | sub
  | mul
  | div
  | mod
  | label (v : Int)
  | call (v : Int)
  | jump (v : Int)
  | jz (v : Int)
  | jn (v : Int)
  | ret
  | store
  | load
  | ichr
  | inum
  | ochr
  | onum
  | exit
deriving DecidableEq

/-- `src.retain(|c| c == ' ' || c == '\t' || c == '\n')` followed by reading
the retained characters as tokens. -/
def tokenize (s : String) : List Tok :=
  s.data.filterMap fun c =>
    if c = ' ' then some Tok.space
    else if c = Char.ofNat 9 then some Tok.tab
    else if c = Char.ofNat 10 then some Tok.lf
    else Option.none

/-- The bit-reading loop of `parse_arg`: `'\n'` terminates, otherwise
`n <<= 1` and `'\t'` adds one.  Returns the value and the unconsumed
tokens; end-of-input also terminates (the `while let` simply ends). -/
def parseBits (n : Int) : List Tok → Int × List Tok
  | [] => (n, [])
  | .lf :: rest => (n, rest)
  | .space :: rest => parseBits (2 * n) rest
  | .tab :: rest => parseBits (2 * n + 1) rest

/-- `parse_arg`: the first token decides the sign via
`tokens.next().unwrap() == b'\t'` — the `unwrap` panics at end-of-input,
modelled by `Option.none` — then the bits are accumulated by `parseBits`
and the sign applied as `n * -1`. -/
def parse_arg : List Tok → Option (Int × List Tok)
  | [] => Option.none
  | t :: rest =>
    let p := parseBits 0 rest
    some (if t = Tok.tab then p.1 * -1 else p.1, p.2)

theorem parseBits_length (n : Int) (ts : List Tok) :
    (parseBits n ts).2.length ≤ ts.length := by
  induction ts generalizing n with
  | nil => simp [parseBits]
  | cons t rest ih =>
    cases t <;> simp [parseBits] <;> exact Nat.le_trans (ih _) (Nat.le_succ _)

theorem parse_arg_length {ts : List Tok} {v : Int} {r : List Tok}
    (h : parse_arg ts = some (v, r)) : r.length < ts.length := by
  cases ts with
  | nil => simp [parse_arg] at h
  | cons t rest =>
    simp only [parse_arg] at h
    have h2 := congrArg Prod.snd (Option.some.inj h)
    simp at h2
    subst h2
    exact Nat.lt_succ_of_le (parseBits_length 0 rest)

/-- How an accumulator value is dispatched by the decoder's `match`:
an opcode taking a numeric argument, the label opcode (which additionally
records the label), a plain opcode, or no match at all (`Insn::None`). -/
inductive OpKind
  | noOp
  | plainOp (i : Insn)
  | argOp (f : Int → Insn)
  | labelOp

/-- The opcode table of `parse`, keyed by the accumulator value
(tokens mapped space ↦ 01, tab ↦ 10, lf ↦ 11, two bits per token). -/
def decodeOp : Nat → OpKind
  | 0b0101 => .argOp .push
  | 0b011001 => .argOp .copy
  | 0b011011 => .argOp .slide
  | 0b110110 => .argOp .call
  | 0b110111 => .argOp .jump
  | 0b111001 => .argOp .jz
  | 0b111010 => .argOp .jn
  | 0b110101 => .labelOp
  | 0b011111 => .plainOp .pop
  | 0b011101 => .plainOp .dup
  | 0b011110 => .plainOp .swap
  | 0b10010101 => .plainOp .add
  | 0b10010110 => .plainOp .sub
  | 0b10010111 => .plainOp .mul
  | 0b10011001 => .plainOp .div
  | 0b10011010 => .plainOp .mod
  | 0b101001 => .plainOp .store
  | 0b101010 => .plainOp .load
  | 0b111011 => .plainOp .ret
  | 0b10111001 => .plainOp .ichr
  | 0b10111010 => .plainOp .inum
  | 0b10110101 => .plainOp .ochr
  | 0b10110110 => .plainOp .onum
  | 0b111111 => .plainOp .exit
  | _ => .noOp

/-- The decoder loop of `parse`.  State: remaining tokens, the rolling `u8`
accumulator `code` (updated `code * 4 + byte % 4 + 1`, wrapping mod 256),
the instructions emitted so far and the label table.  On a match the
accumulator resets to zero; on no match (`Insn::None`) it is KEPT.  A
label records `labels[arg] = insns.len()` before the `Label` is pushed.
`Option.none` models the panic of `parse_arg` at end-of-input. -/
def parseLoop : List Tok → Nat → List Insn → List (Int × Nat) →
    Option (List Insn × List (Int × Nat))
  | [], _, insns, labels => some (insns, labels)
  | t :: rest, code, insns, labels =>
    match decodeOp ((code * 4 + tokCode t + 1) % 256) with
    | .noOp => parseLoop rest ((code * 4 + tokCode t + 1) % 256) insns labels
    | .plainOp i => parseLoop rest 0 (insns ++ [i]) labels
    | .argOp f =>
      match ha : parse_arg rest with
      | Option.none => Option.none
      | some (v, rest') => parseLoop rest' 0 (insns ++ [f v]) labels
    | .labelOp =>
      match ha : parse_arg rest with
      | Option.none => Option.none
      | some (v, rest') =>
        parseLoop rest' 0 (insns ++ [.label v]) ((v, insns.length) :: labels)
termination_by ts _ _ _ => ts.length
decreasing_by
  · simp [Nat.lt_succ_of_le]
  · simp [Nat.lt_succ_of_le]
  · exact Nat.lt_trans (parse_arg_length ha) (Nat.lt_succ_self _)
  · exact Nat.lt_trans (parse_arg_length ha) (Nat.lt_succ_self _)

/-- `parse`: retain the three token characters, then run the decoder loop
from an empty state. -/
def parse (s : String) : Option (List Insn × List (Int × Nat)) :=
  parseLoop (tokenize s) 0 [] []

/-- A decoder variant that follows the spec's description of the no-match
case to the letter: when the accumulator matches no complete opcode, it is
RESET TO ZERO before the next token.  (The source keeps the accumulator in
that case; this definition exists only to be compared with `parseLoop`.) -/
def parseLoopReset : List Tok → Nat → List Insn → List (Int × Nat) →
    Option (List Insn × List (Int × Nat))
  | [], _, insns, labels => some (insns, labels)
  | t :: rest, code, insns, labels =>
    match decodeOp ((code * 4 + tokCode t + 1) % 256) with
    | .noOp => parseLoopReset rest 0 insns labels
    | .plainOp i => parseLoopReset rest 0 (insns ++ [i]) labels
    | .argOp f =>
      match ha : parse_arg rest with
      | Option.none => Option.none
      | some (v, rest') => parseLoopReset rest' 0 (insns ++ [f v]) labels
    | .labelOp =>
      match ha : parse_arg rest with
      | Option.none => Option.none
      | some (v, rest') =>
        parseLoopReset rest' 0 (insns ++ [.label v]) ((v, insns.length) :: labels)
termination_by ts _ _ _ => ts.length
decreasing_by
  · simp [Nat.lt_succ_of_le]
  · simp [Nat.lt_succ_of_le]
  · exact Nat.lt_trans (parse_arg_length ha) (Nat.lt_succ_self _)
  · exact Nat.lt_trans (parse_arg_length ha) (Nat.lt_succ_self _)

/-- First-match association-list lookup; insertion prepends a pair, so the
most recent binding for a key wins, matching `HashMap::insert` overwrite
semantics. -/
def alookup {α : Type} (k : Int) : List (Int × α) → Option α
  | [] => Option.none
  | p :: rest => if k = p.1 then some p.2 else alookup k rest

/-- Output events: a character (`print!("{}", .. as char)`) or a decimal
number, most recent first. -/
inductive OutEv
  | chr (b : Nat)
  | num (v : Int)
deriving DecidableEq

/-- The VM runtime state of `interpret`: operand stack (head = top), call
stack of return addresses, heap, instruction pointer, executed-instruction
counter `n`, plus the modelled stdin byte stream and output events. -/
structure VM where
  stack : List Int
  calls : List Nat
  heap : List (Int × Int)
  ip : Nat
  count : Nat
  input : List Nat
  output : List OutEv
deriving DecidableEq

/-- The spec's §7 error taxonomy for conditions on which the source
panics; `charRange` is the panic of `to_u8().unwrap()` in `PrintChar`. -/
inductive Err
  | undefinedLabel
  | stackUnderflow
  | emptyCallStack
  | missingHeapKey
  | arithmeticError
  | inputParseError
  | charRange
deriving DecidableEq

/-- Result of one iteration of the interpreter loop: continue, terminate
normally (`Exit` or instruction pointer past the end), or abort. -/
inductive StepRes
  | next (s : VM)
  | done (s : VM)
  | fail (e : Err)
deriving DecidableEq

/-- `stdin().read_line(&mut n)`: take bytes up to and including the first
`'\n'` (byte 10); at end-of-input the line is empty. -/
def readLine : List Nat → List Nat × List Nat
  | [] => ([], [])
  | b :: bs =>
    if b = 10 then ([b], bs)
    else
      let p := readLine bs
      (b :: p.1, p.2)

/-- ASCII whitespace test used by `trim_end`. -/
def isWsByte (b : Nat) : Bool :=
  b = 9 || b = 10 || b = 11 || b = 12 || b = 13 || b = 32

/-- `str::trim_end`: drop trailing whitespace. -/
def trimEnd (l : List Nat) : List Nat :=
  (l.reverse.dropWhile isWsByte).reverse

/-- `parse::<BigInt>`: optional `+`/`-` sign then one or more decimal
digits; anything else fails. -/
def decDigits (l : List Nat) : Option Int :=
  if l = [] then Option.none
  else if l.all fun d => 48 ≤ d && d ≤ 57 then
    some (l.foldl (fun a d => a * 10 + ((d : Int) - 48)) 0)
  else Option.none

/-- Parse a (trimmed) byte string as a signed arbitrary-precision integer,
as `n.trim_end().parse::<Num>()` does. -/
def parseDec : List Nat → Option Int
  | 43 :: rest => decDigits rest
  | 45 :: rest => (decDigits rest).map fun v => -v
  | l => decDigits l

/-- One iteration of the `while let Some(insn) = insns.get(ip)` loop of
`interpret`: fetch, count (`n += 1`, undone for `Label`/`None`), execute,
and advance `ip += 1` (jumps/calls/returns first set `ip` explicitly, so
they resume one past the target).  Panics of the source are `fail`s. -/
def step (insns : List Insn) (labels : List (Int × Nat)) (s : VM) : StepRes :=
  match insns[s.ip]? with
  | Option.none => .done s
  | some i =>
    match i with
    | .push v =>
      .next { s with stack := v :: s.stack, count := s.count + 1, ip := s.ip + 1 }
    | .copy a =>
      if h : 0 ≤ a ∧ a.toNat < s.stack.length then
        .next { s with stack := s.stack.get ⟨a.toNat, h.2⟩ :: s.stack,
                       count := s.count + 1, ip := s.ip + 1 }
      else .fail .stackUnderflow
    | .slide a =>
      match s.stack with
      | [] => .fail .stackUnderflow
      | t :: rest =>
        if 0 ≤ a ∧ a.toNat ≤ rest.length then
          .next { s with stack := t :: rest.drop a.toNat,
                         count := s.count + 1, ip := s.ip + 1 }
        else .fail .stackUnderflow
    | .pop =>
      .next { s with stack := s.stack.tail, count := s.count + 1, ip := s.ip + 1 }
    | .dup =>
      match s.stack with
      | [] => .fail .stackUnderflow
      | t :: rest =>
        .next { s with stack := t :: t :: rest, count := s.count + 1, ip := s.ip + 1 }
    | .swap =>
      match s.stack with
      | a :: b :: rest =>
        .next { s with stack := b :: a :: rest, count := s.count + 1, ip := s.ip + 1 }
      | _ => .fail .stackUnderflow
    | .add =>
      match s.stack with
      | r :: x :: rest =>
        .next { s with stack := (x + r) :: rest, count := s.count + 1, ip := s.ip + 1 }
      | _ => .fail .stackUnderflow
    | .sub =>
      match s.stack with
      | r :: x :: rest =>
        .next { s with stack := (x - r) :: rest, count := s.count + 1, ip := s.ip + 1 }
      | _ => .fail .stackUnderflow
    | .mul =>
      match s.stack with
      | r :: x :: rest =>
        .next { s with stack := (x * r) :: rest, count := s.count + 1, ip := s.ip + 1 }
      | _ => .fail .stackUnderflow
    | .div =>
      match s.stack with
      | r :: x :: rest =>
        if r = 0 then .fail .arithmeticError
        else .next { s with stack := x.tdiv r :: rest, count := s.count + 1, ip := s.ip + 1 }
      | _ => .fail .stackUnderflow
    | .mod =>
      match s.stack with
      | r :: x :: rest =>
        if r = 0 then .fail .arithmeticError
        else .next { s with stack := x.tmod r :: rest, count := s.count + 1, ip := s.ip + 1 }
      | _ => .fail .stackUnderflow
    | .label _ =>
      .next { s with count := s.count + 1 - 1, ip := s.ip + 1 }
    | .none =>
      .next { s with count := s.count + 1 - 1, ip := s.ip + 1 }
    | .call v =>
      match alookup v labels with
      | Option.none => .fail .undefinedLabel
      | some l =>
        .next { s with calls := s.ip :: s.calls, ip := l + 1, count := s.count + 1 }
    | .jump v =>
      match alookup v labels with
      | Option.none => .fail .undefinedLabel
      | some l => .next { s with ip := l + 1, count := s.count + 1 }
    | .jz v =>
      match s.stack with
      | [] => .fail .stackUnderflow
      | t :: rest =>
        if t = 0 then
          match alookup v labels with
          | Option.none => .fail .undefinedLabel
          | some l =>
            .next { s with stack := rest, ip := l + 1, count := s.count + 1 }
        else .next { s with stack := rest, ip := s.ip + 1, count := s.count + 1 }
    | .jn v =>
      match s.stack with
      | [] => .fail .stackUnderflow
      | t :: rest =>
        if t < 0 then
          match alookup v labels with
          | Option.none => .fail .undefinedLabel
          | some l =>
            .next { s with stack := rest, ip := l + 1, count := s.count + 1 }
        else .next { s with stack := rest, ip := s.ip + 1, count := s.count + 1 }
    | .ret =>
      match s.calls with
      | [] => .fail .emptyCallStack
      | r :: rest =>
        .next { s with calls := rest, ip := r + 1, count := s.count + 1 }
    | .store =>
      match s.stack with
      | v :: k :: rest =>
        .next { s with stack := rest, heap := (k, v) :: s.heap,
                       count := s.count + 1, ip := s.ip + 1 }
      | _ => .fail .stackUnderflow
    | .load =>
      match s.stack with
      | [] => .fail .stackUnderflow
      | k :: rest =>
        match alookup k s.heap with
        | Option.none => .fail .missingHeapKey
        | some v =>
          .next { s with stack := v :: rest, count := s.count + 1, ip := s.ip + 1 }
    | .ichr =>
      match s.stack with
      | [] => .fail .stackUnderflow
      | k :: rest =>
        match s.input with
        | [] =>
          .next { s with stack := rest, heap := (k, 0) :: s.heap,
                         count := s.count + 1, ip := s.ip + 1 }
        | b :: bs =>
          .next { s with stack := rest, heap := (k, (b : Int)) :: s.heap,
                         input := bs, count := s.count + 1, ip := s.ip + 1 }
    | .inum =>
      match s.stack with
      | [] => .fail .stackUnderflow
      | k :: rest =>
        match parseDec (trimEnd (readLine s.input).1) with
        | Option.none => .fail .inputParseError
        | some v =>
          .next { s with stack := rest, heap := (k, v) :: s.heap,
                         input := (readLine s.input).2,
                         count := s.count + 1, ip := s.ip + 1 }
    | .ochr =>
      match s.stack with
      | [] => .fail .stackUnderflow
      | t :: rest =>
        if 0 ≤ t ∧ t < 256 then
          .next { s with stack := rest, output := .chr t.toNat :: s.output,
                         count := s.count + 1, ip := s.ip + 1 }
        else .fail .charRange
    | .onum =>
      match s.stack with
      | [] => .fail .stackUnderflow
      | t :: rest =>
        .next { s with stack := rest, output := .num t :: s.output,
                       count := s.count + 1, ip := s.ip + 1 }
    | .exit => .done { s with count := s.count + 1 }

/-- Overall result of a run: normal termination with the final state,
abort with an error, or out of fuel. -/
inductive RunRes
  | out (s : VM)
  | fail (e : Err)
  | more (s : VM)
deriving DecidableEq

/-- The interpreter loop, fuelled.  Besides the source behaviour it also
returns, as ghost instrumentation that influences nothing, the list of
instructions the loop actually fetched and executed, in order (used to
state the instruction-count property). -/
def run (insns : List Insn) (labels : List (Int × Nat)) :
    Nat → VM → RunRes × List Insn
  | 0, s => (.more s, [])
  | fuel + 1, s =>
    match insns[s.ip]? with
    | Option.none => (.out s, [])
    | some i =>
      match step insns labels s with
      | .next s' =>
        ((run insns labels fuel s').1, i :: (run insns labels fuel s').2)
      | .done s' => (.out s', [i])
      | .fail e => (.fail e, [i])

/-- The initial state of `interpret`: everything empty, `ip = 0`, `n = 0`,
with a given stdin stream. -/
def initVM (input : List Nat) : VM :=
  { stack := [], calls := [], heap := [], ip := 0, count := 0,
    input := input, output := [] }

/-- Instructions that count toward the executed-instruction total
(`Label` and the sentinel `None` are exempted by `n -= 1`). -/
def isCounted : Insn → Bool
  | .label _ => false
  | .none => false
  | _ => true

/-- Instructions other than `Label` markers. -/
def nonLabel : Insn → Bool
  | .label _ => false
  | _ => true

/-- Big-endian bit accumulation of the numeric-argument format:
space = 0, tab = 1. -/
def bitVal : Tok → Int
  | .tab => 1
  | _ => 0

/-- The invariant the decoder maintains between the emitted instruction
list and the label table: a key maps to an index exactly when that index
holds a `Label` for it and no later index does (last definition wins). -/
def LabelInv (insns : List Insn) (labels : List (Int × Nat)) : Prop :=
  ∀ (L : Int) (j : Nat), alookup L labels = some j ↔
    (insns[j]? = some (.label L) ∧
      ∀ k, j < k → insns[k]? ≠ some (.label L))

theorem parseBits_spec (bits rest : List Tok) (acc : Int)
    (hb : ∀ b ∈ bits, b ≠ Tok.lf) :
    parseBits acc (bits ++ Tok.lf :: rest) =
      (bits.foldl (fun v b => 2 * v + bitVal b) acc, rest) := by
  induction bits generalizing acc with
  | nil => simp [parseBits]
  | cons b bs ih =>
    have hbs : ∀ x ∈ bs, x ≠ Tok.lf := fun x hx => hb x (List.mem_cons_of_mem _ hx)
    cases b with
    | lf => exact absurd rfl (hb Tok.lf (List.mem_cons_self _ _))
    | space => simpa [parseBits, bitVal] using ih (2 * acc) hbs
    | tab => simpa [parseBits, bitVal] using ih (2 * acc + 1) hbs

theorem parseBits_eof (bits : List Tok) (acc : Int)
    (hb : ∀ b ∈ bits, b ≠ Tok.lf) :
    parseBits acc bits = (bits.foldl (fun v b => 2 * v + bitVal b) acc, []) := by
  induction bits generalizing acc with
  | nil => simp [parseBits]
  | cons b bs ih =>
    have hbs : ∀ x ∈ bs, x ≠ Tok.lf := fun x hx => hb x (List.mem_cons_of_mem _ hx)
    cases b with
    | lf => exact absurd rfl (hb Tok.lf (List.mem_cons_self _ _))
    | space => simpa [parseBits, bitVal] using ih (2 * acc) hbs
    | tab => simpa [parseBits, bitVal] using ih (2 * acc + 1) hbs

/-- C1.  Numeric argument decoding: the first token of an argument is the
sign (tab ⇒ negative, space ⇒ non-negative), each following token is one
bit (space = 0, tab = 1) accumulated big-endian (`value = value * 2 + bit`),
the `lf` terminator contributes no bit and stops the decoding, and an
argument with zero bits after the sign decodes to zero — also with the
negative sign. -/
theorem numeric_argument_decoding (sign : Tok) (bits rest : List Tok)
    (hs : sign = Tok.space ∨ sign = Tok.tab)
    (hb : ∀ b ∈ bits, b ≠ Tok.lf) :
    parse_arg (sign :: bits ++ Tok.lf :: rest) =
      some ((if sign = Tok.tab then -1 else 1) *
        bits.foldl (fun v b => 2 * v + bitVal b) 0, rest) ∧
    parse_arg (sign :: Tok.lf :: rest) = some (0, rest) := by
  constructor
  · simp only [parse_arg, List.cons_append]
    rw [parseBits_spec bits rest 0 hb]
    rcases hs with h | h <;> subst h <;> simp
  · simp only [parse_arg]
    rw [show (Tok.lf :: rest : List Tok) = [] ++ Tok.lf :: rest from rfl,
      parseBits_spec [] rest 0 (by simp)]
    rcases hs with h | h <;> subst h <;> simp

theorem numeric_argument_decoding_witness :
    parse_arg (Tok.tab :: [Tok.tab, Tok.space, Tok.tab] ++ Tok.lf :: []) =
      some ((if Tok.tab = Tok.tab then -1 else 1) *
        ([Tok.tab, Tok.space, Tok.tab].foldl (fun v b => 2 * v + bitVal b) 0), []) ∧
    parse_arg (Tok.tab :: Tok.lf :: []) = some (0, []) :=
  numeric_argument_decoding Tok.tab [Tok.tab, Tok.space, Tok.tab] []
    (Or.inr rfl) (by decide)

/-- C2.  Control-flow transfer: `Call(v)` pushes the current instruction
index on the call stack and sets the pointer to `labels[v]`; `Return` pops
the call stack and resumes at the popped index + 1; the implicit `ip += 1`
at the end of the loop iteration applies after every instruction, jumps,
calls and returns included, so a taken jump or call resumes at
`labels[v] + 1` (one past the `Label` no-op) and fall-through resumes one
past the executed instruction. -/
theorem control_flow_transfer (insns : List Insn) (labels : List (Int × Nat))
    (s : VM) (v x t : Int) (l r : Nat) (rs : List Nat) (rest : List Int) :
    (insns[s.ip]? = some (.call v) → alookup v labels = some l →
      step insns labels s =
        .next { s with calls := s.ip :: s.calls, ip := l + 1, count := s.count + 1 }) ∧
    (insns[s.ip]? = some .ret → s.calls = r :: rs →
      step insns labels s =
        .next { s with calls := rs, ip := r + 1, count := s.count + 1 }) ∧
    (insns[s.ip]? = some (.jump v) → alookup v labels = some l →
      step insns labels s = .next { s with ip := l + 1, count := s.count + 1 }) ∧
    (insns[s.ip]? = some (.jz v) → s.stack = t :: rest → t = 0 →
      alookup v labels = some l →
      step insns labels s =
        .next { s with stack := rest, ip := l + 1, count := s.count + 1 }) ∧
    (insns[s.ip]? = some (.jz v) → s.stack = t :: rest → t ≠ 0 →
      step insns labels s =
        .next { s with stack := rest, ip := s.ip + 1, count := s.count + 1 }) ∧
    (insns[s.ip]? = some (.jn v) → s.stack = t :: rest → t < 0 →
      alookup v labels = some l →
      step insns labels s =
        .next { s with stack := rest, ip := l + 1, count := s.count + 1 }) ∧
    (insns[s.ip]? = some (.jn v) → s.stack = t :: rest → ¬ t < 0 →
      step insns labels s =
        .next { s with stack := rest, ip := s.ip + 1, count := s.count + 1 }) ∧
    (insns[s.ip]? = some (.push x) →
      step insns labels s =
        .next { s with stack := x :: s.stack, count := s.count + 1, ip := s.ip + 1 }) := by
  refine ⟨?_, ?_, ?_, ?_, ?_, ?_, ?_, ?_⟩
  · intro h hl; simp [step, h, hl]
  · intro h hc; simp [step, h, hc]
  · intro h hl; simp [step, h, hl]
  · intro h hst h0 hl; simp [step, h, hst, h0, hl]
  · intro h hst h0; simp [step, h, hst, h0]
  · intro h hst h0 hl; simp [step, h, hst, h0, hl]
  · intro h hst h0; simp [step, h, hst, h0]
  · intro h; simp [step, h]

theorem control_flow_transfer_witness :
    (step [Insn.call 3, Insn.label 3] [(3, 1)] (initVM []) =
      .next { initVM [] with calls := [0], ip := 2, count := 1 }) ∧
    (step [Insn.ret] [] { initVM [] with calls := [4] } =
      .next { initVM [] with calls := [], ip := 5, count := 1 }) ∧
    (step [Insn.jump 3] [(3, 9)] (initVM []) =
      .next { initVM [] with ip := 10, count := 1 }) ∧
    (step [Insn.jz 3] [(3, 9)] { initVM [] with stack := [0] } =
      .next { initVM [] with stack := [], ip := 10, count := 1 }) ∧
    (step [Insn.jz 3] [(3, 9)] { initVM [] with stack := [2] } =
      .next { initVM [] with stack := [], ip := 1, count := 1 }) ∧
    (step [Insn.jn 3] [(3, 9)] { initVM [] with stack := [-2] } =
      .next { initVM [] with stack := [], ip := 10, count := 1 }) ∧
    (step [Insn.jn 3] [(3, 9)] { initVM [] with stack := [2] } =
      .next { initVM [] with stack := [], ip := 1, count := 1 }) ∧
    (step [Insn.push 11] [] (initVM []) =
      .next { initVM [] with stack := [11], ip := 1, count := 1 }) := by
  refine ⟨?_, ?_, ?_, ?_, ?_, ?_, ?_, ?_⟩
  · exact (control_flow_transfer [Insn.call 3, Insn.label 3] [(3, 1)]
      (initVM []) 3 0 0 1 0 [] []).1 rfl rfl
  · exact (control_flow_transfer [Insn.ret] []
      { initVM [] with calls := [4] } 0 0 0 0 4 [] []).2.1 rfl rfl
  · exact (control_flow_transfer [Insn.jump 3] [(3, 9)]
      (initVM []) 3 0 0 9 0 [] []).2.2.1 rfl rfl
  · exact (control_flow_transfer [Insn.jz 3] [(3, 9)]
      { initVM [] with stack := [0] } 3 0 0 9 0 [] []).2.2.2.1 rfl rfl rfl rfl
  · exact (control_flow_transfer [Insn.jz 3] [(3, 9)]
      { initVM [] with stack := [2] } 3 0 2 9 0 [] []).2.2.2.2.1 rfl rfl (by decide)
  · exact (control_flow_transfer [Insn.jn 3] [(3, 9)]
      { initVM [] with stack := [-2] } 3 0 (-2) 9 0 [] []).2.2.2.2.2.1 rfl rfl
      (by decide) rfl
  · exact (control_flow_transfer [Insn.jn 3] [(3, 9)]
      { initVM [] with stack := [2] } 3 0 2 9 0 [] []).2.2.2.2.2.2.1 rfl rfl
      (by decide)
  · exact (control_flow_transfer [Insn.push 11] []
      (initVM []) 0 11 0 0 0 [] []).2.2.2.2.2.2.2 rfl

/-- C8.  Heap round-trip: `HeapStore` with value `v` on top of key `k`
stores `v` under `k` (the new binding shadowing any older one), and a
`HeapLoad` of `k` executed against that heap pushes exactly `v` back;
`HeapLoad` of a key that was never stored is a fatal `MissingHeapKey`
error. -/
theorem heap_roundtrip (insns insns2 : List Insn)
    (labels labels2 : List (Int × Nat)) (s s2 : VM) (k v : Int)
    (rest rest2 : List Int) (h2 : List (Int × Int)) :
    (insns[s.ip]? = some .store → s.stack = v :: k :: rest →
      step insns labels s =
        .next { s with stack := rest, heap := (k, v) :: s.heap,
                       count := s.count + 1, ip := s.ip + 1 }) ∧
    (insns2[s2.ip]? = some .load → s2.stack = k :: rest2 →
      s2.heap = (k, v) :: h2 →
      step insns2 labels2 s2 =
        .next { s2 with stack := v :: rest2, count := s2.count + 1,
                        ip := s2.ip + 1 }) ∧
    (insns2[s2.ip]? = some .load → s2.stack = k :: rest2 →
      alookup k s2.heap = Option.none →
      step insns2 labels2 s2 = .fail .missingHeapKey) := by
  refine ⟨?_, ?_, ?_⟩
  · intro h hst; simp [step, h, hst]
  · intro h hst hh; simp [step, h, hst, hh, alookup]
  · intro h hst hh; simp [step, h, hst, hh]

theorem heap_roundtrip_witness :
    (step [Insn.store] [] { initVM [] with stack := [99, 42] } =
      .next { initVM [] with stack := [], heap := [(42, 99)],
                             count := 1, ip := 1 }) ∧
    (step [Insn.load] [] { initVM [] with stack := [42], heap := [(42, 99)] } =
      .next { initVM [] with stack := [99], heap := [(42, 99)],
                             count := 1, ip := 1 }) ∧
    (step [Insn.load] [] { initVM [] with stack := [7] } =
      .fail .missingHeapKey) := by
  refine ⟨?_, ?_, ?_⟩
  · exact (heap_roundtrip [Insn.store] [] [] []
      { initVM [] with stack := [99, 42] } (initVM []) 42 99 [] [] []).1 rfl rfl
  · exact (heap_roundtrip [] [Insn.load] [] []
      (initVM []) { initVM [] with stack := [42], heap := [(42, 99)] }
      42 99 [] [] []).2.1 rfl rfl rfl
  · exact (heap_roundtrip [] [Insn.load] [] []
      (initVM []) { initVM [] with stack := [7] } 7 0 [] [] []).2.2 rfl rfl rfl

/-- C9 counterexample: the claim says `Copy(n)` never mutates the stack
depth, but executing `Copy(0)` on the one-element stack `[5]` yields the
stack `[5, 5]`: the depth grows from 1 to 2. -/
theorem copy_depth_counterexample :
    step [Insn.copy 0] [] { initVM [] with stack := [5] } =
      .next { initVM [] with stack := [5, 5], count := 1, ip := 1 } ∧
    ([5, 5] : List Int).length ≠ ([5] : List Int).length := by
  exact ⟨by decide, by decide⟩

/-- C9 (amended).  For every stack deep enough for the operation,
`Copy(n)` pushes a copy of the element `n` positions below the top
(0 = the top itself), growing the depth by exactly one and leaving the
existing elements in place, and `Slide(n)` removes the `n` elements below
the top, reducing the depth by exactly `n` while preserving the top
element. -/
theorem copy_slide_amended (insns : List Insn) (labels : List (Int × Nat))
    (s : VM) (a t : Int) (rest : List Int) :
    (insns[s.ip]? = some (.copy a) → 0 ≤ a →
      (hl : a.toNat < s.stack.length) →
      step insns labels s =
        .next { s with stack := s.stack.get ⟨a.toNat, hl⟩ :: s.stack,
                       count := s.count + 1, ip := s.ip + 1 } ∧
      (s.stack.get ⟨a.toNat, hl⟩ :: s.stack).length = s.stack.length + 1) ∧
    (insns[s.ip]? = some (.slide a) → s.stack = t :: rest → 0 ≤ a →
      a.toNat ≤ rest.length →
      step insns labels s =
        .next { s with stack := t :: rest.drop a.toNat,
                       count := s.count + 1, ip := s.ip + 1 } ∧
      (t :: rest.drop a.toNat).length = s.stack.length - a.toNat ∧
      (t :: rest.drop a.toNat).head? = s.stack.head?) := by
  constructor
  · intro h ha hl
    refine ⟨?_, by simp⟩
    simp only [step, h]
    rw [dif_pos ⟨ha, hl⟩]
  · intro h hst ha hlen
    refine ⟨?_, ?_, ?_⟩
    · simp [step, h, hst, ha, hlen]
    · simp [hst, List.length_drop]
      omega
    · simp [hst]

theorem copy_slide_amended_witness :
    ((0 : Int) ≤ 1 ∧ (1 : Int).toNat < ([3, 4] : List Int).length) ∧
    (step [Insn.copy 1] [] { initVM [] with stack := [3, 4] } =
      .next { initVM [] with stack := [4, 3, 4], count := 1, ip := 1 } ∧
     ([4, 3, 4] : List Int).length = ([3, 4] : List Int).length + 1) ∧
    (step [Insn.slide 2] [] { initVM [] with stack := [9, 1, 2, 3] } =
      .next { initVM [] with stack := [9, 3], count := 1, ip := 1 } ∧
     ([9, 3] : List Int).length = ([9, 1, 2, 3] : List Int).length - (2 : Int).toNat ∧
     ([9, 3] : List Int).head? = ([9, 1, 2, 3] : List Int).head?) := by
  refine ⟨by decide, ?_, ?_⟩
  · exact (copy_slide_amended [Insn.copy 1] []
      { initVM [] with stack := [3, 4] } 1 0 []).1 rfl (by decide) (by decide)
  · exact (copy_slide_amended [Insn.slide 2] []
      { initVM [] with stack := [9, 1, 2, 3] } 2 9 [1, 2, 3]).2 rfl rfl
      (by decide) (by decide)

/-- C10.  When `ReadChar` executes with the input stream at end-of-input,
execution does not fail: the one-byte read buffer stays zero-initialized,
so the number 0 is stored in the heap at the popped key. -/
theorem readchar_eof (insns : List Insn) (labels : List (Int × Nat))
    (s : VM) (k : Int) (rest : List Int) :
    insns[s.ip]? = some .ichr → s.stack = k :: rest → s.input = [] →
    step insns labels s =
      .next { s with stack := rest, heap := (k, 0) :: s.heap,
                     count := s.count + 1, ip := s.ip + 1 } ∧
    alookup k ((k, 0) :: s.heap) = some 0 := by
  intro h hst hin
  constructor
  · simp [step, h, hst, hin]
  · simp [alookup]

theorem readchar_eof_witness :
    step [Insn.ichr] [] { initVM [] with stack := [42] } =
      .next { initVM [] with stack := [], heap := [(42, 0)],
                             count := 1, ip := 1 } ∧
    alookup 42 ((42, 0) :: (initVM []).heap) = some 0 :=
  readchar_eof [Insn.ichr] [] { initVM [] with stack := [42] } 42 []
    rfl rfl rfl

theorem natAbs_tmod_eq (a b : Int) : (a.tmod b).natAbs = a.natAbs % b.natAbs := by
  cases a with
  | ofNat m => cases b with
    | ofNat n => rfl
    | negSucc n => rfl
  | negSucc m =>
    cases b with
    | ofNat n =>
      rw [show Int.tmod (Int.negSucc m) (Int.ofNat n) =
          -(((m + 1) % n : Nat) : Int) from rfl, Int.natAbs_neg]
      rfl
    | negSucc n =>
      rw [show Int.tmod (Int.negSucc m) (Int.negSucc n) =
          -(((m + 1) % (n + 1) : Nat) : Int) from rfl, Int.natAbs_neg]
      rfl

theorem tmod_nonpos_of_nonpos {a : Int} (b : Int) (h : a ≤ 0) :
    a.tmod b ≤ 0 := by
  cases a with
  | ofNat m =>
    have hm : m = 0 := by
      have h' : (m : Int) ≤ 0 := h
      omega
    subst hm
    cases b <;> simp [Int.tmod]
  | negSucc m =>
    cases b with
    | ofNat n =>
      rw [show Int.tmod (Int.negSucc m) (Int.ofNat n) =
          -(((m + 1) % n : Nat) : Int) from rfl]
      have h' : (0 : Int) ≤ (((m + 1) % n : Nat) : Int) := Int.ofNat_nonneg _
      omega
    | negSucc n =>
      rw [show Int.tmod (Int.negSucc m) (Int.negSucc n) =
          -(((m + 1) % (n + 1) : Nat) : Int) from rfl]
      have h' : (0 : Int) ≤ (((m + 1) % (n + 1) : Nat) : Int) := Int.ofNat_nonneg _
      omega

/-- C4.  Division and modulo use truncation toward zero on
arbitrary-precision integers: for nonzero divisor `r`, `Div` replaces the
two topmost elements `a` (below) and `r` (top) by `a.tdiv r`, the
quotient truncated toward zero (`|a / r| = |a| / |r|`), and `Mod` by the
remainder `a.tmod r`, which satisfies `a = (a / r) * r + (a % r)`, has
magnitude below `|r|` and takes the dividend's sign; in particular
`(-7) / 2 = -3` with remainder `-1`.  A zero right operand is a fatal
arithmetic error for both. -/
theorem div_mod_truncation (insnsD insnsM : List Insn)
    (labels labels2 : List (Int × Nat)) (sD sM : VM) (a r : Int)
    (restD restM : List Int) :
    (insnsD[sD.ip]? = some .div → sD.stack = r :: a :: restD → r ≠ 0 →
      step insnsD labels sD =
        .next { sD with stack := a.tdiv r :: restD,
                        count := sD.count + 1, ip := sD.ip + 1 }) ∧
    (insnsM[sM.ip]? = some .mod → sM.stack = r :: a :: restM → r ≠ 0 →
      step insnsM labels2 sM =
        .next { sM with stack := a.tmod r :: restM,
                        count := sM.count + 1, ip := sM.ip + 1 }) ∧
    (a.tdiv r * r + a.tmod r = a) ∧
    ((a.tdiv r).natAbs = a.natAbs / r.natAbs) ∧
    (r ≠ 0 → (a.tmod r).natAbs < r.natAbs) ∧
    (0 ≤ a → 0 ≤ a.tmod r) ∧
    (a ≤ 0 → a.tmod r ≤ 0) ∧
    (insnsD[sD.ip]? = some .div → sD.stack = r :: a :: restD → r = 0 →
      step insnsD labels sD = .fail .arithmeticError) ∧
    (insnsM[sM.ip]? = some .mod → sM.stack = r :: a :: restM → r = 0 →
      step insnsM labels2 sM = .fail .arithmeticError) ∧
    ((-7 : Int).tdiv 2 = -3 ∧ (-7 : Int).tmod 2 = -1) := by
  refine ⟨?_, ?_, ?_, ?_, ?_, ?_, ?_, ?_, ?_, by decide⟩
  · intro h hst h0; simp [step, h, hst, h0]
  · intro h hst h0; simp [step, h, hst, h0]
  · exact Int.tdiv_add_tmod' a r
  · exact Int.natAbs_tdiv a r
  · intro h0
    rw [natAbs_tmod_eq]
    exact Nat.mod_lt _ (Int.natAbs_pos.mpr h0)
  · exact fun ha => Int.tmod_nonneg r ha
  · exact fun ha => tmod_nonpos_of_nonpos r ha
  · intro h hst h0; simp [step, h, hst, h0]
  · intro h hst h0; simp [step, h, hst, h0]

theorem div_mod_truncation_witness :
    (step [Insn.div] [] { initVM [] with stack := [2, -7] } =
      .next { initVM [] with stack := [(-7 : Int).tdiv 2], count := 1, ip := 1 }) ∧
    ((-7 : Int).tdiv 2 * 2 + (-7 : Int).tmod 2 = -7) ∧
    (((-7 : Int).tmod 2).natAbs < (2 : Int).natAbs) ∧
    (0 ≤ (-7 : Int) → 0 ≤ (-7 : Int).tmod 2) ∧
    ((-7 : Int) ≤ 0 → (-7 : Int).tmod 2 ≤ 0) ∧
    (step [Insn.mod] [] { initVM [] with stack := [0, -7] } =
      .fail .arithmeticError) ∧
    ((-7 : Int).tdiv 2 = -3 ∧ (-7 : Int).tmod 2 = -1) := by
  have h1 := div_mod_truncation [Insn.div] [Insn.mod] [] []
    { initVM [] with stack := [2, -7] } { initVM [] with stack := [0, -7] }
    (-7) 2 [] []
  have h2 := div_mod_truncation [Insn.div] [Insn.mod] [] []
    { initVM [] with stack := [2, -7] } { initVM [] with stack := [0, -7] }
    (-7) 0 [] []
  exact ⟨h1.1 rfl rfl (by decide), h1.2.2.1, h1.2.2.2.2.1 (by decide),
    h1.2.2.2.2.2.1, h1.2.2.2.2.2.2.1, h2.2.2.2.2.2.2.2.2.1 rfl rfl rfl,
    h1.2.2.2.2.2.2.2.2.2⟩

/-- C5 counterexample.  The decoder is NOT total and does NOT drop
truncated instructions: on the two-space input the `Push` opcode completes
exactly at end-of-input and the decoder fails (`tokens.next().unwrap()`
panics in `parse_arg`, modelled by `Option.none`); and on the three-space
input the argument is truncated (sign read, no terminator) yet `Push 0`
IS emitted rather than dropped. -/
theorem decoder_totality_counterexample :
    parse "  " = Option.none ∧
    parse "   " = some ([Insn.push 0], []) := by
  constructor
  · rw [parse, show tokenize "  " = [Tok.space, Tok.space] from rfl]
    simp [parseLoop, decodeOp, tokCode, parse_arg]
  · rw [parse, show tokenize "   " = [Tok.space, Tok.space, Tok.space] from rfl]
    simp [parseLoop, decodeOp, tokCode, parse_arg, parseBits]

/-- C5 (amended).  Decoding scans to end-of-input with no error, except
that it fails (a panic in the source) when an opcode requiring a numeric
argument — or the label opcode — is completed by the very last token, so
that not even a sign token follows; an argument whose terminator is
missing at end-of-input is NOT dropped: the instruction is emitted with
the bits read so far; and an opcode left incomplete at end-of-inputemits
nothing and decoding ends normally. -/
theorem decoder_truncation_amended (t sign : Tok) (code : Nat)
    (insns : List Insn) (labels : List (Int × Nat)) (f : Int → Insn)
    (bits : List Tok) :
    (decodeOp ((code * 4 + tokCode t + 1) % 256) = .argOp f →
      parseLoop [t] code insns labels = Option.none) ∧
    (decodeOp ((code * 4 + tokCode t + 1) % 256) = .labelOp →
      parseLoop [t] code insns labels = Option.none) ∧
    (decodeOp ((code * 4 + tokCode t + 1) % 256) = .argOp f →
      (∀ b ∈ bits, b ≠ Tok.lf) →
      parseLoop (t :: sign :: bits) code insns labels =
        some (insns ++ [f ((if sign = Tok.tab then -1 else 1) *
          bits.foldl (fun v b => 2 * v + bitVal b) 0)], labels)) ∧
    (decodeOp ((code * 4 + tokCode t + 1) % 256) = .noOp →
      parseLoop [t] code insns labels = some (insns, labels)) := by
  refine ⟨?_, ?_, ?_, ?_⟩
  · intro h
    simp only [parseLoop]
    rw [h]
    simp [parse_arg]
  · intro h
    simp only [parseLoop]
    rw [h]
    simp [parse_arg]
  · intro h hb
    have harg : parse_arg (sign :: bits) =
        some ((if sign = Tok.tab then -1 else 1) *
          bits.foldl (fun v b => 2 * v + bitVal b) 0, []) := by
      simp only [parse_arg]
      rw [parseBits_eof bits 0 hb]
      by_cases hsign : sign = Tok.tab <;> simp [hsign]
    simp only [parseLoop]
    rw [h, harg]
    simp [parseLoop]
  · intro h
    simp only [parseLoop]
    rw [h]

theorem decoder_truncation_amended_witness :
    (parseLoop [Tok.space] 1 [] [] = Option.none) ∧
    (parseLoop [Tok.space, Tok.tab, Tok.tab] 1 [] [] =
      some ([] ++ [Insn.push ((if Tok.tab = Tok.tab then -1 else 1) *
        ([Tok.tab].foldl (fun v b => 2 * v + bitVal b) 0))], [])) ∧
    (parseLoop [Tok.space] 0 [] [] = some ([], [])) := by
  have h := decoder_truncation_amended Tok.space Tok.tab 1 [] [] Insn.push [Tok.tab]
  have h0 := decoder_truncation_amended Tok.space Tok.tab 0 [] [] Insn.push [Tok.tab]
  exact ⟨h.1 rfl, h.2.2.1 rfl (by decide), h0.2.2.2 rfl⟩

/-- C6 counterexample.  The claim says the decoder resets the accumulator
to zero whenever it matches no complete opcode; the source instead KEEPS
it (only a successful match resets).  On the tokens
`[tab, space, space, space]` the source decoder accumulates through three
unmatched values and emits `Add`, whereas the reset-on-no-match decoder
(`parseLoopReset`, the claim's reading) emits nothing; the two disagree. -/
theorem accumulator_reset_counterexample :
    parseLoop [Tok.tab, Tok.space, Tok.space, Tok.space] 0 [] [] =
      some ([Insn.add], []) ∧
    parseLoopReset [Tok.tab, Tok.space, Tok.space, Tok.space] 0 [] [] =
      some ([], []) ∧
    parseLoop [Tok.tab, Tok.space, Tok.space, Tok.space] 0 [] [] ≠
      parseLoopReset [Tok.tab, Tok.space, Tok.space, Tok.space] 0 [] [] := by
  refine ⟨?h1, ?h2, ?h3⟩
  case h1 => simp [parseLoop, decodeOp, tokCode]
  case h2 => simp [parseLoopReset, decodeOp, tokCode]
  case h3 =>
    rw [show parseLoop [Tok.tab, Tok.space, Tok.space, Tok.space] 0 [] [] =
        some ([Insn.add], []) by simp [parseLoop, decodeOp, tokCode],
      show parseLoopReset [Tok.tab, Tok.space, Tok.space, Tok.space] 0 [] [] =
        some ([], []) by simp [parseLoopReset, decodeOp, tokCode]]
    decide

/-- C6 (amended).  When the rolling accumulator's value matches no known
complete opcode pattern after consuming a token, the decoder emits no
instruction for that token and RETAINS the accumulated value for the next
token; the accumulator is reset to zero only after an instruction is
emitted. -/
theorem accumulator_no_match_amended (t : Tok) (rest : List Tok)
    (code : Nat) (insns : List Insn) (labels : List (Int × Nat)) :
    decodeOp ((code * 4 + tokCode t + 1) % 256) = .noOp →
    parseLoop (t :: rest) code insns labels =
      parseLoop rest ((code * 4 + tokCode t + 1) % 256) insns labels := by
  intro h
  conv_lhs => rw [parseLoop]
  rw [h]

theorem accumulator_no_match_amended_witness :
    parseLoop [Tok.space, Tok.space] 0 [] [] =
      parseLoop [Tok.space] ((0 * 4 + tokCode Tok.space + 1) % 256) [] [] :=
  accumulator_no_match_amended Tok.space [Tok.space] 0 [] [] rfl

theorem decodeOp_plainOp_not_label (c : Nat) (i : Insn)
    (h : decodeOp c = .plainOp i) : ∀ L, i ≠ Insn.label L := by
  intro L
  unfold decodeOp at h
  split at h <;> (try cases h) <;> simp

theorem decodeOp_argOp_not_label (c : Nat) (f : Int → Insn)
    (h : decodeOp c = .argOp f) : ∀ v L, f v ≠ Insn.label L := by
  intro v L
  unfold decodeOp at h
  split at h <;> (try cases h) <;> simp

theorem LabelInv_nil : LabelInv [] [] := by
  intro L j
  constructor
  · intro h
    simp [alookup] at h
  · intro ⟨h, _⟩
    simp at h

theorem LabelInv_append_not_label {insns : List Insn}
    {labels : List (Int × Nat)} (i : Insn) (h : LabelInv insns labels)
    (hi : ∀ L, i ≠ Insn.label L) : LabelInv (insns ++ [i]) labels := by
  intro L j
  constructor
  · intro hl
    obtain ⟨hj, hlast⟩ := (h L j).mp hl
    have hjlt : j < insns.length := (List.getElem?_eq_some_iff.mp hj).1
    refine ⟨by rw [List.getElem?_append_left hjlt]; exact hj, ?_⟩
    intro k hk hc
    by_cases hkl : k < insns.length
    · rw [List.getElem?_append_left hkl] at hc
      exact hlast k hk hc
    · by_cases hke : k = insns.length
      · subst hke
        rw [List.getElem?_concat_length] at hc
        exact hi L (Option.some.inj hc)
      · rw [List.getElem?_eq_none (by simp; omega)] at hc
        exact Option.noConfusion hc
  · intro ⟨hj, hlast⟩
    apply (h L j).mpr
    have hjlen : j < (insns ++ [i]).length :=
      (List.getElem?_eq_some_iff.mp hj).1
    have hjlt : j < insns.length := by
      by_cases hje : j = insns.length
      · exfalso
        subst hje
        rw [List.getElem?_concat_length] at hj
        exact hi L (Option.some.inj hj)
      · simp at hjlen
        omega
    refine ⟨by rw [List.getElem?_append_left hjlt] at hj; exact hj, ?_⟩
    intro k hk hc
    have hklt : k < insns.length := (List.getElem?_eq_some_iff.mp hc).1
    apply hlast k hk
    rw [List.getElem?_append_left hklt]
    exact hc

theorem LabelInv_append_label {insns : List Insn}
    {labels : List (Int × Nat)} (v : Int) (h : LabelInv insns labels) :
    LabelInv (insns ++ [Insn.label v]) ((v, insns.length) :: labels) := by
  intro L j
  by_cases hLv : L = v
  · subst hLv
    constructor
    · intro hl
      have hj : j = insns.length := by
        simp [alookup] at hl
        omega
      subst hj
      refine ⟨List.getElem?_concat_length _ _, ?_⟩
      intro k hk hc
      rw [List.getElem?_eq_none (by simp; omega)] at hc
      exact Option.noConfusion hc
    · intro ⟨hj, hlast⟩
      have hje : j = insns.length := by
        by_cases hc : j = insns.length
        · exact hc
        · exfalso
          have hjlen : j < (insns ++ [Insn.label L]).length :=
            (List.getElem?_eq_some_iff.mp hj).1
          have hjlt : j < insns.length := by simp at hjlen; omega
          exact hlast insns.length (by omega)
            (List.getElem?_concat_length _ _)
      subst hje
      simp [alookup]
  · have halk : alookup L ((v, insns.length) :: labels) = alookup L labels := by
      simp [alookup, hLv]
    rw [halk, h L j]
    constructor
    · intro ⟨hj, hlast⟩
      have hjlt : j < insns.length := (List.getElem?_eq_some_iff.mp hj).1
      refine ⟨by rw [List.getElem?_append_left hjlt]; exact hj, ?_⟩
      intro k hk hc
      by_cases hkl : k < insns.length
      · rw [List.getElem?_append_left hkl] at hc
        exact hlast k hk hc
      · by_cases hke : k = insns.length
        · subst hke
          rw [List.getElem?_concat_length] at hc
          have := Option.some.inj hc
          exact hLv (by injection this with h2; exact h2.symm)
        · rw [List.getElem?_eq_none (by simp; omega)] at hc
          exact Option.noConfusion hc
    · intro ⟨hj, hlast⟩
      have hjlen : j < (insns ++ [Insn.label v]).length :=
        (List.getElem?_eq_some_iff.mp hj).1
      have hjlt : j < insns.length := by
        by_cases hje : j = insns.length
        · exfalso
          subst hje
          rw [List.getElem?_concat_length] at hj
          have := Option.some.inj hj
          exact hLv (by injection this with h2; exact h2.symm)
        · simp at hjlen
          omega
      refine ⟨by rw [List.getElem?_append_left hjlt] at hj; exact hj, ?_⟩
      intro k hk hc
      have hklt : k < insns.length := (List.getElem?_eq_some_iff.mp hc).1
      apply hlast k hk
      rw [List.getElem?_append_left hklt]
      exact hc

theorem parseLoop_inv (n : Nat) :
    ∀ (toks : List Tok) (code : Nat) (insns : List Insn)
      (labels : List (Int × Nat)) (insns' : List Insn)
      (labels' : List (Int × Nat)),
    toks.length ≤ n →
    parseLoop toks code insns labels = some (insns', labels') →
    LabelInv insns labels → LabelInv insns' labels' := by
  induction n with
  | zero =>
    intro toks code insns labels insns' labels' hlen hp hinv
    cases toks with
    | nil =>
      simp only [parseLoop, Option.some.injEq, Prod.mk.injEq] at hp
      obtain ⟨h1, h2⟩ := hp
      subst h1
      subst h2
      exact hinv
    | cons t rest => simp at hlen
  | succ n ih =>
    intro toks code insns labels insns' labels' hlen hp hinv
    cases toks with
    | nil =>
      simp only [parseLoop, Option.some.injEq, Prod.mk.injEq] at hp
      obtain ⟨h1, h2⟩ := hp
      subst h1
      subst h2
      exact hinv
    | cons t rest =>
      simp only [parseLoop] at hp
      simp only [List.length_cons, Nat.succ_le_succ_iff] at hlen
      split at hp
      · exact ih rest _ insns labels insns' labels' hlen hp hinv
      · rename_i i heq
        exact ih rest 0 _ labels insns' labels' hlen hp
          (LabelInv_append_not_label i hinv (decodeOp_plainOp_not_label _ i heq))
      · rename_i f heq
        split at hp
        · exact Option.noConfusion hp
        · rename_i v rest' hpa
          have hlt := parse_arg_length hpa
          exact ih rest' 0 _ labels insns' labels' (by omega) hp
            (LabelInv_append_not_label (f v) hinv
              (fun L => decodeOp_argOp_not_label _ f heq v L))
      · rename_i heq
        split at hp
        · exact Option.noConfusion hp
        · rename_i v rest' hpa
          have hlt := parse_arg_length hpa
          exact ih rest' 0 _ _ insns' labels' (by omega) hp
            (LabelInv_append_label v hinv)

/-- C7.  Label redefinition is last-wins: if the decoder produces an
instruction list in which `Label L` occurs at position `i` and again at a
later position `j` after which it never recurs, then the label table maps
`L` to `j`, the index of the last `Label L`; consequently a `Jump(L)`
taken anywhere in the program transfers control to (one past) the later
definition. -/
theorem label_redefinition_last_wins (toks : List Tok) (insns : List Insn)
    (labels : List (Int × Nat)) (L : Int) (i j : Nat) (s : VM)
    (hp : parseLoop toks 0 [] [] = some (insns, labels))
    (hi : insns[i]? = some (.label L)) (hij : i < j)
    (hj : insns[j]? = some (.label L))
    (hlast : ∀ k, j < k → insns[k]? ≠ some (.label L)) :
    alookup L labels = some j ∧
    (insns[s.ip]? = some (.jump L) →
      step insns labels s =
        .next { s with ip := j + 1, count := s.count + 1 }) := by
  have hinv := parseLoop_inv toks.length toks 0 [] [] insns labels
    (Nat.le_refl _) hp LabelInv_nil
  have h1 : alookup L labels = some j := (hinv L j).mpr ⟨hj, hlast⟩
  exact ⟨h1, fun hjp => by simp [step, hjp, h1]⟩

theorem label_redefinition_last_wins_witness :
    alookup 0 [(0, 1), (0, 0)] = some 1 ∧
    step [Insn.label 0, Insn.label 0, Insn.jump 0, Insn.exit]
        [(0, 1), (0, 0)] { initVM [] with ip := 2 } =
      .next { initVM [] with ip := 2, count := 1 } := by
  have hp : parseLoop
      [Tok.lf, Tok.space, Tok.space, Tok.space, Tok.lf,
       Tok.lf, Tok.space, Tok.space, Tok.space, Tok.lf,
       Tok.lf, Tok.space, Tok.lf, Tok.space, Tok.lf,
       Tok.lf, Tok.lf, Tok.lf] 0 [] [] =
      some ([Insn.label 0, Insn.label 0, Insn.jump 0, Insn.exit],
        [(0, 1), (0, 0)]) := by
    simp [parseLoop, decodeOp, tokCode, parse_arg, parseBits]
  have hlast : ∀ k, 1 < k →
      ([Insn.label 0, Insn.label 0, Insn.jump 0, Insn.exit] :
        List Insn)[k]? ≠ some (Insn.label 0) := by
    intro k hk
    rcases k with _ | _ | _ | _ | k
    · omega
    · omega
    · decide
    · decide
    · rw [List.getElem?_eq_none (by simp)]
      simp
  have h := label_redefinition_last_wins
    [Tok.lf, Tok.space, Tok.space, Tok.space, Tok.lf,
     Tok.lf, Tok.space, Tok.space, Tok.space, Tok.lf,
     Tok.lf, Tok.space, Tok.lf, Tok.space, Tok.lf,
     Tok.lf, Tok.lf, Tok.lf]
    [Insn.label 0, Insn.label 0, Insn.jump 0, Insn.exit]
    [(0, 1), (0, 0)] 0 0 1 { initVM [] with ip := 2 }
    hp (by decide) (by decide) (by decide) hlast
  exact ⟨h.1, h.2 rfl⟩

theorem step_count_next {insns : List Insn} {labels : List (Int × Nat)}
    {s s' : VM} {i : Insn} (hg : insns[s.ip]? = some i)
    (h : step insns labels s = .next s') :
    s'.count = s.count + (if isCounted i then 1 else 0) := by
  cases i <;>
    simp only [step, hg] at h <;>
    (repeat' split at h) <;>
    first
      | exact StepRes.noConfusion h
      | (cases h; simp [isCounted])

theorem step_count_done {insns : List Insn} {labels : List (Int × Nat)}
    {s s' : VM} {i : Insn} (hg : insns[s.ip]? = some i)
    (h : step insns labels s = .done s') :
    s'.count = s.count + (if isCounted i then 1 else 0) := by
  cases i <;>
    simp only [step, hg] at h <;>
    (repeat' split at h) <;>
    first
      | exact StepRes.noConfusion h
      | (cases h; simp [isCounted])

theorem run_count (fuel : Nat) :
    ∀ (insns : List Insn) (labels : List (Int × Nat)) (s s' : VM)
      (tr : List Insn),
    run insns labels fuel s = (.out s', tr) →
    s'.count = s.count + (tr.filter isCounted).length := by
  induction fuel with
  | zero =>
    intro insns labels s s' tr h
    simp [run] at h
  | succ n ih =>
    intro insns labels s s' tr h
    simp only [run] at h
    cases hg : insns[s.ip]? with
    | none =>
      rw [hg] at h
      cases h
      simp
    | some i =>
      rw [hg] at h
      cases hstep : step insns labels s with
      | next s1 =>
        rw [hstep] at h
        have h1 := congrArg Prod.fst h
        have h2 := congrArg Prod.snd h
        simp only at h1 h2
        subst h2
        have hrun : run insns labels n s1 =
            (.out s', (run insns labels n s1).2) := by
          rw [← h1]
        have hih := ih insns labels s1 s' _ hrun
        have hsc := step_count_next hg hstep
        rw [List.filter_cons]
        cases hci : isCounted i <;>
          rw [hci] at hsc <;> simp at hsc <;> simp [hih, hsc] <;> omega
      | done s1 =>
        rw [hstep] at h
        cases h
        have hsc := step_count_done hg hstep
        rw [List.filter_cons]
        cases hci : isCounted i <;>
          rw [hci] at hsc <;> simp at hsc <;> simp [hsc]
      | fail e =>
        rw [hstep] at h
        exact absurd (congrArg Prod.fst h) (by simp)

theorem run_trace_mem (fuel : Nat) :
    ∀ (insns : List Insn) (labels : List (Int × Nat)) (s : VM)
      (r : RunRes) (tr : List Insn),
    run insns labels fuel s = (r, tr) → ∀ x ∈ tr, x ∈ insns := by
  induction fuel with
  | zero =>
    intro insns labels s r tr h x hx
    simp only [run] at h
    have h2 := congrArg Prod.snd h
    simp only at h2
    subst h2
    simp at hx
  | succ n ih =>
    intro insns labels s r tr h x hx
    simp only [run] at h
    cases hg : insns[s.ip]? with
    | none =>
      rw [hg] at h
      have h2 := congrArg Prod.snd h
      simp only at h2
      subst h2
      simp at hx
    | some i =>
      have hmem : i ∈ insns := List.getElem?_mem hg
      rw [hg] at h
      cases hstep : step insns labels s with
      | next s1 =>
        rw [hstep] at h
        have h2 := congrArg Prod.snd h
        simp only at h2
        subst h2
        rcases List.mem_cons.mp hx with h1 | h1
        · subst h1; exact hmem
        · exact ih insns labels s1 (run insns labels n s1).1
            (run insns labels n s1).2 rfl x h1
      | done s1 =>
        rw [hstep] at h
        have h2 := congrArg Prod.snd h
        simp only at h2
        subst h2
        simp at hx
        subst hx
        exact hmem
      | fail e =>
        rw [hstep] at h
        have h2 := congrArg Prod.snd h
        simp only at h2
        subst h2
        simp at hx
        subst hx
        exact hmem

/-- C3.  For every run that terminates normally (instruction pointer past
the end or `Exit`), the executed-instruction count returned by the VM
equals the number of non-`Label` instructions in the list of instructions
the loop actually executed, in execution order (`tr`, the ghost trace of
`run`); instructions never reached contribute nothing, since the count is
a function of the trace alone.  (The hypothesis that the sentinel
`Insn.none` is absent holds for every decoder output; the source exempts
it from the count exactly as it exempts `Label`.) -/
theorem executed_instruction_count (insns : List Insn)
    (labels : List (Int × Nat)) (inp : List Nat) (fuel : Nat) (s' : VM)
    (tr : List Insn) (hn : Insn.none ∉ insns)
    (h : run insns labels fuel (initVM inp) = (.out s', tr)) :
    s'.count = (tr.filter nonLabel).length := by
  have h1 := run_count fuel insns labels (initVM inp) s' tr h
  have h2 : tr.filter isCounted = tr.filter nonLabel := by
    apply List.filter_congr
    intro x hx
    have hxi : x ∈ insns :=
      run_trace_mem fuel insns labels (initVM inp) (.out s') tr h x hx
    have hne : x ≠ Insn.none := fun he => hn (he ▸ hxi)
    cases x <;>
      first
        | exact absurd rfl hne
        | simp [isCounted, nonLabel]
  rw [← h2, h1]
  simp [initVM]

theorem executed_instruction_count_witness :
    (Insn.none ∉ [Insn.label 7, Insn.call 5, Insn.exit, Insn.label 5,
      Insn.ret, Insn.push 9]) ∧
    VM.count { stack := [], calls := [], heap := [], ip := 2, count := 3,
               input := [], output := [] } =
      (List.filter nonLabel
        [Insn.label 7, Insn.call 5, Insn.ret, Insn.exit]).length :=
  ⟨by decide,
    executed_instruction_count
      [Insn.label 7, Insn.call 5, Insn.exit, Insn.label 5, Insn.ret,
        Insn.push 9]
      [(7, 0), (5, 3)] [] 10
      { stack := [], calls := [], heap := [], ip := 2, count := 3,
        input := [], output := [] }
      [Insn.label 7, Insn.call 5, Insn.ret, Insn.exit]
      (by decide) (by decide)⟩
